import Mathlib

/-!
Shallow embedding of the install-forensics core of `apt-sync` (src/main.rs),
together with proofs of the specified properties of its parsing and
correlation functions.

Rust `&str` values are modelled as `String`; all string algorithms are
re-expressed as structural recursions over `List Char` so that every
definition is executable and kernel-computable.  Machine integers
(`i64`) are modelled as `Int`, with the `i64` range check made explicit
where the source can fail on overflow (`str::parse::<i64>`).
-/

namespace AptSync

/-- Boolean test that `p` is a prefix of `l` (Rust `str::starts_with`). -/
def hasPre : List Char → List Char → Bool
  | [], _ => true
  | _ :: _, [] => false
  | p :: ps, c :: cs => p == c && hasPre ps cs

/-- Index of the first occurrence of the substring `pat` in `l`
(Rust `str::find` on a string pattern). -/
def findSub (pat : List Char) : List Char → Option Nat
  | [] => if hasPre pat [] then some 0 else none
  | c :: rest =>
    if hasPre pat (c :: rest) then some 0
    else (findSub pat rest).map (· + 1)

/-- Rust `str::contains` for a string pattern. -/
def containsStr (s pat : String) : Bool := (findSub pat.data s.data).isSome

/-- The substring of `s` following the first occurrence of `pat`
(empty when `pat` does not occur). -/
def afterFirst (s pat : String) : String :=
  match findSub pat.data s.data with
  | some i => ⟨s.data.drop (i + pat.data.length)⟩
  | none => ""

/-- The substring of `s` before the first occurrence of `pat`
(all of `s` when `pat` does not occur). -/
def upToFirst (s pat : String) : String :=
  match findSub pat.data s.data with
  | some i => ⟨s.data.take i⟩
  | none => s

/-- Fuelled splitting of `l` at every occurrence of the non-empty
pattern `pat` (Rust `str::split` with a string pattern); the fuel is
always called with `l.length + 1`, which is enough because each step
consumes at least one character. -/
def splitSubF (pat : List Char) : Nat → List Char → List (List Char)
  | 0, l => [l]
  | fuel + 1, l =>
    match findSub pat l with
    | none => [l]
    | some i => l.take i :: splitSubF pat fuel (l.drop (i + pat.length))

/-- Rust `str::split` on a string separator (callers in this file use
only non-empty separators). -/
def splitStr (s sep : String) : List String :=
  if sep.data.isEmpty then [s]
  else (splitSubF sep.data (s.data.length + 1) s.data).map (fun l => ⟨l⟩)

/-- Splitting on a single character, keeping empty parts
(the underlying list form of Rust `str::split('\n')`). -/
def splitCharAux (sep : Char) : List Char → List Char → List (List Char)
  | [], acc => [acc.reverse]
  | c :: rest, acc =>
    if c == sep then acc.reverse :: splitCharAux sep rest []
    else splitCharAux sep rest (c :: acc)

/-- Remove one trailing carriage return (part of Rust `str::lines`). -/
def dropCR (l : List Char) : List Char :=
  match l.getLast? with
  | some c => if c == '\r' then l.dropLast else l
  | none => l

/-- Rust `str::lines`: split at newlines, strip one trailing `'\r'`
from every `'\n'`-terminated segment, and drop the final segment when it
is empty (text ending in `'\n'`); a final segment with no newline is
kept verbatim. -/
def linesOf (s : String) : List String :=
  let parts := splitCharAux '\n' s.data []
  let inner := parts.dropLast.map dropCR
  let last := (parts.getLast?).getD []
  (if last = [] then inner else inner ++ [last]).map (fun l => ⟨l⟩)

/-- Rust `str::trim` (whitespace from both ends). -/
def trimL (l : List Char) : List Char :=
  ((l.dropWhile Char.isWhitespace).reverse.dropWhile Char.isWhitespace).reverse

/-- `trimL` lifted to `String`. -/
def trimStr (s : String) : String := ⟨trimL s.data⟩

/-- Rust `str::strip_prefix`. -/
def stripPre (pat s : String) : Option String :=
  if hasPre pat.data s.data then some ⟨s.data.drop pat.data.length⟩ else none

/-- Rust `str::starts_with` lifted to `String`. -/
def startsWithStr (pat s : String) : Bool := hasPre pat.data s.data

/-- Whitespace splitting with an accumulator
(Rust `str::split_whitespace`: no empty tokens). -/
def splitWsAux : List Char → List Char → List (List Char)
  | [], acc => if acc.isEmpty then [] else [acc.reverse]
  | c :: rest, acc =>
    if c.isWhitespace then
      if acc.isEmpty then splitWsAux rest []
      else acc.reverse :: splitWsAux rest []
    else splitWsAux rest (c :: acc)

/-- Rust `str::split_whitespace` collected into a list. -/
def splitWsStr (s : String) : List String := (splitWsAux s.data []).map (fun l => ⟨l⟩)

/-- First whitespace-delimited token of `s`, or `""` when there is none
(Rust `s.split_whitespace().next().unwrap_or("")`). -/
def firstTokenOf (s : String) : String := (splitWsStr s).headD ""

/-- Rust `str::split_once` on a character: split at the first occurrence. -/
def splitOnceChar (sep : Char) : List Char → Option (List Char × List Char)
  | [] => none
  | c :: rest =>
    if c == sep then some ([], rest)
    else (splitOnceChar sep rest).map (fun q => (c :: q.1, q.2))

/-- The part of `l` before the first occurrence of `sep`
(Rust `s.split(sep).next()`, which always yields a first part). -/
def upToChar (sep : Char) : List Char → List Char
  | [] => []
  | c :: rest => if c == sep then [] else c :: upToChar sep rest

/-- Decimal value of a digit string, `none` on any non-digit. -/
def digitsValAux : List Char → Nat → Option Nat
  | [], acc => some acc
  | c :: rest, acc =>
    if c.isDigit then digitsValAux rest (10 * acc + (c.toNat - 48)) else none

/-- Decimal value of a non-empty digit string. -/
def digitsVal (l : List Char) : Option Nat :=
  match l with
  | [] => none
  | _ :: _ => digitsValAux l 0

/-- Rust `str::parse::<i64>`: optional sign, at least one digit, and the
value must fit in the `i64` range. -/
def parseI64 (s : String) : Option Int :=
  match s.data with
  | [] => none
  | c :: rest =>
    if c = '+' then
      (digitsVal rest).bind fun n =>
        if n ≤ 9223372036854775807 then some (n : Int) else none
    else if c = '-' then
      (digitsVal rest).bind fun n =>
        if n ≤ 9223372036854775808 then some (-(n : Int)) else none
    else
      (digitsVal (c :: rest)).bind fun n =>
        if n ≤ 9223372036854775807 then some (n : Int) else none

/-- Lexicographic (codepoint) order on character lists; for UTF-8 data
this coincides with the byte order Rust's `BTreeSet<&str>` iterates in. -/
def strLtB : List Char → List Char → Bool
  | [], [] => false
  | [], _ :: _ => true
  | _ :: _, [] => false
  | c :: cs, d :: ds => if c < d then true else if d < c then false else strLtB cs ds

/-! ## Data model and operations (from src/main.rs) -/

/-- One completed package-manager transaction (struct `HistoryEntry`). -/
structure HistoryEntry where
  date : String
  commandline : String
  requested_by : Option String
  installed : List String
deriving DecidableEq

/-- `parse_history_packages` (src/main.rs:193): split an `Install:` line
on `"), "`, take each entry's name as the part before the first `':'`,
drop entries with an empty name or containing `"automatic"`. -/
def parse_history_packages (pkgs_line : String) : List String :=
  (splitStr pkgs_line "), ").filterMap fun entry =>
    let name : String := ⟨upToChar ':' entry.data⟩
    if name = "" then none
    else if containsStr entry "automatic" then none
    else some name

/-- The in-progress state of the `parse_history` scan: the accumulated
entries plus the mutable locals `date`, `cmdline`, `requested`,
`installed` of the Rust loop. -/
structure HistState where
  entries : List HistoryEntry
  date : String
  cmdline : String
  requested : Option String
  installed : List String
deriving DecidableEq

/-- One iteration of the `parse_history` loop (src/main.rs:168-188),
mirroring the Rust `if let ... else if` chain. -/
def histStep (s : HistState) (line : String) : HistState :=
  match stripPre "Start-Date: " line with
  | some d =>
    { s with date := trimStr d, cmdline := "", requested := none, installed := [] }
  | none =>
  match stripPre "Commandline: " line with
  | some c => { s with cmdline := trimStr c }
  | none =>
  match stripPre "Requested-By: " line with
  | some r => { s with requested := some (trimStr r) }
  | none =>
  match stripPre "Install: " line with
  | some pkgs => { s with installed := parse_history_packages pkgs }
  | none =>
  if startsWithStr "End-Date: " line && !s.installed.isEmpty then
    { s with entries := s.entries ++
        [{ date := s.date, commandline := s.cmdline,
           requested_by := s.requested, installed := s.installed }] }
  else s

/-- Initial state of the `parse_history` scan. -/
def histInit : HistState :=
  { entries := [], date := "", cmdline := "", requested := none, installed := [] }

/-- `parse_history` (src/main.rs:161): fold the line scan over the log. -/
def parse_history (log : String) : List HistoryEntry :=
  ((linesOf log).foldl histStep histInit).entries

/-- Number of events the `parse_history` scan emits from `lines` when
started in state `s`: one per end-marker line at which the current
install list is non-empty.  (Stated from the amended invariant; the
state evolves by the source's `histStep`.) -/
def endEmits : HistState → List String → Nat
  | _, [] => 0
  | s, line :: rest =>
    (if startsWithStr "End-Date: " line && !s.installed.isEmpty then 1 else 0)
      + endEmits (histStep s line) rest

/-- `format_pkg_list` (src/main.rs:217). -/
def format_pkg_list (pkgs : List String) : String :=
  if pkgs.length ≤ 10 then String.intercalate ", " pkgs
  else String.intercalate ", " (pkgs.take 10)
    ++ (" + " ++ Nat.repr (pkgs.length - 10) ++ " more")

/-- `siblings` (src/main.rs:228): the installed packages of `entry`
other than `name`, in original order. -/
def siblings (entry : HistoryEntry) (name : String) : List String :=
  entry.installed.filter fun p => decide (p ≠ name)

/-- Insert a string into a strictly sorted list, keeping it sorted and
duplicate-free (the effect of one `BTreeSet` insertion). -/
def sortedInsert (s : String) : List String → List String
  | [] => [s]
  | t :: rest =>
    if strLtB s.data t.data then s :: t :: rest
    else if s = t then t :: rest
    else t :: sortedInsert s rest

/-- Collect a list of strings into ascending duplicate-free order
(Rust `collect::<BTreeSet<&str>>()` followed by in-order iteration). -/
def sortDedup (l : List String) : List String :=
  l.foldl (fun acc s => sortedInsert s acc) []

/-- The multiset of candidate packages of `same_day_neighbors`
(src/main.rs:243-251): packages of events on the same day that differ
from `entry` in date or commandline, minus `name` and the sibling set. -/
def sameDayPkgs (entries : List HistoryEntry) (entry : HistoryEntry)
    (name : String) (sibling_set : List String) : List String :=
  ((entries.filter fun e =>
      decide (firstTokenOf e.date = firstTokenOf entry.date)
        && !(decide (e.date = entry.date) && decide (e.commandline = entry.commandline))).flatMap
    fun e => e.installed).filter
    fun p => decide (p ≠ name) && decide (p ∉ sibling_set)

/-- `same_day_neighbors` (src/main.rs:237): the candidate multiset
collected through a `BTreeSet`, i.e. sorted and deduplicated. -/
def same_day_neighbors (entries : List HistoryEntry) (entry : HistoryEntry)
    (name : String) (sibling_set : List String) : List String :=
  sortDedup (sameDayPkgs entries entry name sibling_set)

/-- One interactive shell command (struct `ShellHistoryEntry`). -/
structure ShellHistoryEntry where
  timestamp : Int
  command : String
deriving DecidableEq

/-- One iteration of the `parse_shell_history` loop (src/main.rs:379-393):
accept a line of the form `": epoch[:extra];command"`. -/
def parseShellLine (line : String) : Option ShellHistoryEntry :=
  match stripPre ": " line with
  | none => none
  | some rest =>
    match splitOnceChar ';' rest.data with
    | none => none
    | some q =>
      match parseI64 ⟨upToChar ':' q.1⟩ with
      | none => none
      | some t => some { timestamp := t, command := ⟨q.2⟩ }

/-- `parse_shell_history` (src/main.rs:376). -/
def parse_shell_history (contents : String) : List ShellHistoryEntry :=
  (linesOf contents).filterMap parseShellLine

/-- The fixed trivial-command first tokens of `is_interesting_command`
(src/main.rs:411), including the empty token. -/
def trivialFirstWords : List String :=
  ["ls", "clear", "exit", "pwd", "echo", "cat", "true", "history", ""]

/-- `is_interesting_command` (src/main.rs:411). -/
def is_interesting_command (cmd : String) : Bool :=
  !(decide (firstTokenOf cmd ∈ trivialFirstWords))

/-- Stable insertion of `a` into `l` by the key `key`: `a` is placed
after every element whose key is `≤ key a`. -/
def insKey {α : Type} (key : α → Int) (a : α) : List α → List α
  | [] => [a]
  | b :: rest => if key b ≤ key a then b :: insKey key a rest else a :: b :: rest

/-- Stable sort by an `Int` key (Rust `Vec::sort_by_key`, which is a
stable sort; a stable sort's result is uniquely determined by the key
order, so insertion sort is an exact model). -/
def sortKey {α : Type} (key : α → Int) (l : List α) : List α :=
  l.foldl (fun acc x => insKey key x acc) []

/-- The records within the window, sorted by proximity to the target
(src/main.rs:425-438). -/
def nearbySorted (history : List ShellHistoryEntry) (target window : Int) :
    List ShellHistoryEntry :=
  sortKey (fun e => |e.timestamp - target|)
    (history.filter fun e => decide (|e.timestamp - target| ≤ window))

/-- The skip conditions of the `find_nearby_commands` output loop
(src/main.rs:441-449), as a keep-predicate. -/
def keepCmd (show_all : Bool) (cmd : String) : Bool :=
  !(containsStr cmd "apt-get install" || containsStr cmd "apt install")
    && (show_all || is_interesting_command cmd)

/-- The records `find_nearby_commands` keeps, in output order: the
sorted in-window records surviving the skip conditions, capped at 5. -/
def selectedNearby (history : List ShellHistoryEntry) (target window : Int)
    (show_all : Bool) : List ShellHistoryEntry :=
  ((nearbySorted history target window).filter fun e => keepCmd show_all e.command).take 5

/-- `find_nearby_commands` (src/main.rs:419). -/
def find_nearby_commands (history : List ShellHistoryEntry) (target window : Int)
    (show_all : Bool) : List String :=
  (selectedNearby history target window show_all).map fun e => e.command

/-- The candidate package-name tokens of `parse_journal_pwd`
(src/main.rs:285-289): drop the leading run of flag / `apt-get` / `apt`
/ `install` tokens, then drop any remaining flag tokens. -/
def pkgNameTokens (commandline : String) : List String :=
  ((splitWsStr commandline).dropWhile fun w =>
      startsWithStr "-" w || decide (w = "apt-get") || decide (w = "apt")
        || decide (w = "install")).filter
    fun w => !(startsWithStr "-" w)

/-- The `PWD=` value of a journal line: the text after the first `PWD=`
up to the next literal `" ;"` or the line end (src/main.rs:307-314). -/
def pwdValue (line : String) : String := upToFirst (afterFirst line "PWD=") " ;"

/-- The `COMMAND=` value of a journal line: the text after the first
`COMMAND=` to the line end (src/main.rs:318-322). -/
def commandValue (line : String) : String := afterFirst line "COMMAND="

/-- Home-directory tilde substitution of the accepted path
(src/main.rs:330-337). -/
def displayPath (home p : String) : String :=
  if hasPre home.data p.data then
    if p.data.drop home.data.length = [] then "~"
    else ⟨'~' :: p.data.drop home.data.length⟩
  else p

/-- The journal line scan of `parse_journal_pwd` (src/main.rs:297-342):
return the display path of the first line that has both keys and whose
command value mentions "apt" and some candidate token. -/
def scanLines (pkgNames : List String) (home : String) : List String → Option String
  | [] => none
  | line :: rest =>
    if containsStr line "PWD=" && containsStr line "COMMAND=" then
      let p := pwdValue line
      let c := commandValue line
      if containsStr c "apt" && pkgNames.any (fun pkg => containsStr c pkg) then
        some (displayPath home p)
      else scanLines pkgNames home rest
    else scanLines pkgNames home rest

/-- `parse_journal_pwd` (src/main.rs:283).  The home directory is passed
explicitly: `none` models a failed `env::var("HOME")` lookup. -/
def parse_journal_pwd (journal commandline : String) (home : Option String) :
    Option String :=
  let pkgNames := pkgNameTokens commandline
  if pkgNames.isEmpty then none
  else
    match home with
    | none => none
    | some h => scanLines pkgNames h (linesOf journal)

/-- Spec-side reading of the §4.3 audit-line acceptance rule, used to
state the correlation claim over `List.findSome?` ("accept the first
line whose ..."). -/
def journalLineSpec (pkgNames : List String) (home : String) (line : String) :
    Option String :=
  if containsStr line "PWD=" && containsStr line "COMMAND=" then
    if containsStr (commandValue line) "apt"
        && pkgNames.any (fun pkg => containsStr (commandValue line) pkg) then
      some (displayPath home (pwdValue line))
    else none
  else none

/-! ## Concrete fixtures (inputs of the source's own tests, reused by
the witness theorems) -/

/-- A one-transaction history log (from the source's tests). -/
def exLog1 : String :=
  "Start-Date: 2026-02-10  12:11:38\nCommandline: apt-get install -y build-essential\nRequested-By: user (1000)\nInstall: build-essential:amd64 (12.12ubuntu1), gcc:amd64 (4:15.2.0-4ubuntu1, automatic)\nEnd-Date: 2026-02-10  12:12:00\n"

/-- The event `parse_history` produces from `exLog1`. -/
def exEntry1 : HistoryEntry :=
  { date := "2026-02-10  12:11:38",
    commandline := "apt-get install -y build-essential",
    requested_by := some "user (1000)",
    installed := ["build-essential"] }

/-- A log fragment with an install list and end markers but no start
marker. -/
def exLogNoStart : String :=
  "Install: foo:amd64 (1.0)\nEnd-Date: 2026-02-10  12:12:00\nEnd-Date: 2026-02-10  12:13:00"

/-- A pure-upgrade transaction with no install list (from the source's
tests). -/
def exLogUpgrade : String :=
  "Start-Date: 2026-02-06  08:54:10\nCommandline: apt full-upgrade --autoremove --purge\nRequested-By: user (1000)\nUpgrade: python3.13:amd64 (3.13.7-1ubuntu0.2, 3.13.7-1ubuntu0.3)\nEnd-Date: 2026-02-06  08:55:14\n"

/-- First same-day event of the uidmap scenario. -/
def exEntryA : HistoryEntry :=
  { date := "2025-08-10  10:00:00",
    commandline := "apt-get install uidmap aardvark-dns",
    requested_by := none,
    installed := ["uidmap", "aardvark-dns"] }

/-- Second same-day event of the uidmap scenario. -/
def exEntryB : HistoryEntry :=
  { date := "2025-08-10  14:00:00",
    commandline := "apt-get install podman slirp4netns",
    requested_by := none,
    installed := ["podman", "slirp4netns"] }

/-- Shell history of the nearby-commands scenario. -/
def exHist : List ShellHistoryEntry :=
  [{ timestamp := 1000, command := "git status" },
   { timestamp := 1100, command := "cd ~/project" },
   { timestamp := 1500, command := "make build" },
   { timestamp := 1800, command := "vim README.md" }]

/-- Journal line of the working-directory scenario (from the source's
tests). -/
def exJournal : String :=
  "Feb 10 21:50:50 host sudo[12345]: PWD=/home/u/dotfiles ; USER=root ; COMMAND=/usr/bin/apt-get install -y uidmap\nFeb 10 21:50:51 host systemd[1]: Starting apt-daily.service"

/-! ## Shared helper lemmas -/

/-- Two strings with equal character data are equal. -/
theorem strEq_of_data {s t : String} (h : s.data = t.data) : s = t := by
  cases s
  cases t
  exact congrArg String.mk h

/-- `hasPre` is exactly the prefix relation. -/
theorem hasPre_iff : ∀ (p l : List Char), hasPre p l = true ↔ ∃ t, l = p ++ t := by
  intro p
  induction p with
  | nil => intro l; simp [hasPre]
  | cons x ps ih =>
    intro l
    cases l with
    | nil =>
      simp [hasPre]
    | cons c cs =>
      simp only [hasPre, Bool.and_eq_true, beq_iff_eq, ih cs]
      constructor
      · rintro ⟨rfl, t, rfl⟩
        exact ⟨t, rfl⟩
      · rintro ⟨t, h⟩
        injection h with h1 h2
        exact ⟨h1.symm, t, h2⟩

/-- A successful `stripPre` means the pattern was a prefix. -/
theorem stripPre_isSome {p s r : String} (h : stripPre p s = some r) :
    hasPre p.data s.data = true := by
  unfold stripPre at h
  split at h
  · assumption
  · exact absurd h (by simp)

/-- A successful `stripPre` decomposes the string. -/
theorem stripPre_some {p s r : String} (h : stripPre p s = some r) : s = p ++ r := by
  have hp := stripPre_isSome h
  rcases (hasPre_iff p.data s.data).mp hp with ⟨t, ht⟩
  unfold stripPre at h
  rw [if_pos hp] at h
  have hr : r.data = s.data.drop p.data.length := by
    have := congrArg String.data (Option.some.inj h)
    exact this.symm
  apply strEq_of_data
  rw [String.data_append, hr, ht]
  simp

/-- `stripPre` recovers the suffix of an explicit concatenation. -/
theorem stripPre_append (p t : String) : stripPre p (p ++ t) = some t := by
  unfold stripPre
  have hp : hasPre p.data (p ++ t).data = true := by
    rw [String.data_append]
    exact (hasPre_iff _ _).mpr ⟨t.data, rfl⟩
  rw [if_pos hp]
  congr 1
  apply strEq_of_data
  rw [String.data_append]
  simp

/-- A non-empty pattern that is a prefix pins down the first character. -/
theorem hasPre_first {p l : List Char} (h : hasPre p l = true) :
    ∀ a, p.head? = some a → l.head? = some a := by
  cases p with
  | nil => intro a ha; simp at ha
  | cons x ps =>
    cases l with
    | nil => simp [hasPre] at h
    | cons c cs =>
      intro a ha
      simp only [hasPre, Bool.and_eq_true, beq_iff_eq] at h
      simp only [List.head?_cons, Option.some.injEq] at ha ⊢
      rw [← h.1, ha]

/-- Two patterns with different first characters cannot both be prefixes
of the same line. -/
theorem not_both (p q : String) (a b : Char) {l : List Char}
    (hpa : p.data.head? = some a) (hqb : q.data.head? = some b) (hab : a ≠ b)
    (hp : hasPre p.data l = true) : hasPre q.data l = false := by
  by_contra hq
  rw [Bool.not_eq_false] at hq
  have h1 := hasPre_first hp a hpa
  have h2 := hasPre_first hq b hqb
  rw [h1] at h2
  exact hab (Option.some.inj h2)

/-! ## C6: siblings -/

/-- Claim C6: `siblings entry name` is exactly the packages of
`entry.installed` other than `name`, preserving original order
(a sublist of `entry.installed`), and never includes `name`. -/
theorem siblings_spec : ∀ (entry : HistoryEntry) (name : String),
    List.Sublist (siblings entry name) entry.installed
    ∧ name ∉ siblings entry name
    ∧ ∀ p, p ∈ siblings entry name ↔ p ∈ entry.installed ∧ p ≠ name := by
  intro entry name
  have hmem : ∀ p, p ∈ siblings entry name ↔ p ∈ entry.installed ∧ p ≠ name := by
    intro p
    simp [siblings, List.mem_filter]
  exact ⟨List.filter_sublist _, fun h => ((hmem name).mp h).2 rfl, hmem⟩

/-- Witness for C6 at the uidmap scenario of the source's tests. -/
theorem siblings_spec_witness :
    "aardvark-dns" ∈ siblings
        { date := "2025-08-10  10:00:00",
          commandline := "apt-get install uidmap aardvark-dns",
          requested_by := none,
          installed := ["uidmap", "aardvark-dns"] } "uidmap"
    ∧ "uidmap" ∉ siblings
        { date := "2025-08-10  10:00:00",
          commandline := "apt-get install uidmap aardvark-dns",
          requested_by := none,
          installed := ["uidmap", "aardvark-dns"] } "uidmap" :=
  ⟨((siblings_spec _ "uidmap").2.2 "aardvark-dns").mpr (by decide),
    (siblings_spec _ "uidmap").2.1⟩

/-! ## C9: format_pkg_list -/

/-- Claim C9: `format_pkg_list` joins up to 10 names with `", "`, and
past 10 joins the first 10 and appends an `"N more"` suffix counting the
omitted names; with 13 entries the suffix is literally `" + 3 more"`. -/
theorem format_pkg_list_spec : ∀ pkgs : List String,
    (pkgs.length ≤ 10 → format_pkg_list pkgs = String.intercalate ", " pkgs)
    ∧ (10 < pkgs.length →
        format_pkg_list pkgs =
          String.intercalate ", " (pkgs.take 10)
            ++ (" + " ++ Nat.repr (pkgs.length - 10) ++ " more"))
    ∧ (pkgs.length = 13 →
        format_pkg_list pkgs = String.intercalate ", " (pkgs.take 10) ++ " + 3 more") := by
  intro pkgs
  refine ⟨fun h => ?_, fun h => ?_, fun h => ?_⟩
  · simp [format_pkg_list, h]
  · rw [format_pkg_list, if_neg (by omega)]
  · rw [format_pkg_list, if_neg (by omega), h]
    congr 1

/-- Witness for C9 at a 13-element list. -/
theorem format_pkg_list_spec_witness :
    (["a", "b", "c", "d", "e", "f", "g", "h", "i", "j", "k", "l", "m"] : List String).length = 13
    ∧ format_pkg_list ["a", "b", "c", "d", "e", "f", "g", "h", "i", "j", "k", "l", "m"]
        = "a, b, c, d, e, f, g, h, i, j + 3 more" :=
  ⟨by decide, by
    rw [(format_pkg_list_spec _).2.2 (by decide)]
    decide⟩

/-! ## C10: parse_journal_pwd without a home directory -/

/-- Claim C10: when the home-directory lookup fails, `parse_journal_pwd`
returns `none` for every journal text and command line. -/
theorem parse_journal_pwd_requires_home : ∀ (journal commandline : String),
    parse_journal_pwd journal commandline none = none := by
  intro journal commandline
  by_cases h : (pkgNameTokens commandline).isEmpty = true <;>
    simp [parse_journal_pwd, h]

/-! ## C1: parse_history events have non-empty install lists -/

/-- How one scan step changes the emitted-events list: an event is
appended exactly at an end-marker line with a non-empty current install
list, and the event is built from the current state. -/
theorem histStep_entries (s : HistState) (line : String) :
    (histStep s line).entries =
      if startsWithStr "End-Date: " line && !s.installed.isEmpty then
        s.entries ++ [{ date := s.date, commandline := s.cmdline,
                        requested_by := s.requested, installed := s.installed }]
      else s.entries := by
  unfold histStep
  cases h1 : stripPre "Start-Date: " line with
  | some d =>
    have hf : startsWithStr "End-Date: " line = false :=
      not_both "Start-Date: " "End-Date: " 'S' 'E' (by decide) (by decide) (by decide)
        (stripPre_isSome h1)
    simp [hf]
  | none =>
  cases h2 : stripPre "Commandline: " line with
  | some c =>
    have hf : startsWithStr "End-Date: " line = false :=
      not_both "Commandline: " "End-Date: " 'C' 'E' (by decide) (by decide) (by decide)
        (stripPre_isSome h2)
    simp [hf]
  | none =>
  cases h3 : stripPre "Requested-By: " line with
  | some r =>
    have hf : startsWithStr "End-Date: " line = false :=
      not_both "Requested-By: " "End-Date: " 'R' 'E' (by decide) (by decide) (by decide)
        (stripPre_isSome h3)
    simp [hf]
  | none =>
  cases h4 : stripPre "Install: " line with
  | some pkgs =>
    have hf : startsWithStr "End-Date: " line = false :=
      not_both "Install: " "End-Date: " 'I' 'E' (by decide) (by decide) (by decide)
        (stripPre_isSome h4)
    simp [hf]
  | none =>
    by_cases hc : (startsWithStr "End-Date: " line && !s.installed.isEmpty) = true <;>
      simp [hc]

/-- One step of the scan preserves "all emitted events have a non-empty
install list". -/
theorem histStep_preserves_nonempty (s : HistState) (line : String)
    (h : ∀ e ∈ s.entries, e.installed ≠ []) :
    ∀ e ∈ (histStep s line).entries, e.installed ≠ [] := by
  intro e he
  rw [histStep_entries] at he
  by_cases hcond : (startsWithStr "End-Date: " line && !s.installed.isEmpty) = true
  · rw [if_pos hcond] at he
    rcases List.mem_append.mp he with hl | hr
    · exact h e hl
    · have hne : s.installed ≠ [] := by
        intro hnil
        rw [hnil] at hcond
        simp at hcond
      rcases List.mem_singleton.mp hr with rfl
      simpa using hne
  · rw [if_neg hcond] at he
    exact h e he

/-- The scan invariant holds along any fold. -/
theorem foldl_histStep_nonempty : ∀ (lines : List String) (s : HistState),
    (∀ e ∈ s.entries, e.installed ≠ []) →
    ∀ e ∈ (lines.foldl histStep s).entries, e.installed ≠ [] := by
  intro lines
  induction lines with
  | nil => intro s h; simpa using h
  | cons line rest ih =>
    intro s h
    exact ih (histStep s line) (histStep_preserves_nonempty s line h)

/-- Claim C1: every event returned by `parse_history` has a non-empty
`installed` list; a transaction whose install list is empty after
automatic-filtering (or absent) never yields an event. -/
theorem parse_history_installed_nonempty : ∀ log : String,
    ∀ e ∈ parse_history log, e.installed ≠ [] := by
  intro log
  exact foldl_histStep_nonempty (linesOf log) histInit (by simp [histInit])

/-- Witness for C1 at the source's own history-log test input. -/
theorem parse_history_installed_nonempty_witness :
    exEntry1 ∈ parse_history exLog1 ∧ exEntry1.installed ≠ [] :=
  ⟨by decide, parse_history_installed_nonempty exLog1 exEntry1 (by decide)⟩

/-! ## C2: when parse_history materializes an event

The claim says an event is materialized only when an end marker is seen
after a start marker.  The code never checks for a start marker: it
emits at any end-marker line whenever the install list populated by the
most recent install-list line is non-empty, and the list is not cleared
after emission, so a log with an install list and end markers but no
start marker still yields events (one per end marker). -/

/-- Counterexample to C2 as stated: `exLogNoStart` contains no start
marker at all, yet `parse_history` materializes two events from it
(one per end-marker line, both carrying the same install list). -/
theorem parse_history_event_without_start :
    (∀ line ∈ linesOf exLogNoStart, startsWithStr "Start-Date: " line = false)
    ∧ (parse_history exLogNoStart).length = 2 := by
  constructor
  · decide
  · decide

/-- The entries-length bookkeeping of the scan: folding from any state
adds exactly `endEmits` events. -/
theorem foldl_histStep_length : ∀ (lines : List String) (s : HistState),
    ((lines.foldl histStep s).entries).length = s.entries.length + endEmits s lines := by
  intro lines
  induction lines with
  | nil => intro s; simp [endEmits]
  | cons line rest ih =>
    intro s
    rw [List.foldl_cons, ih (histStep s line), endEmits]
    rw [histStep_entries]
    by_cases hc : (startsWithStr "End-Date: " line && !s.installed.isEmpty) = true
    · rw [if_pos hc, if_pos hc]
      simp
      omega
    · rw [if_neg hc, if_neg hc]
      omega

/-- The scan never changes the state when the line has no recognized
install-list prefix and the current install list is empty. -/
theorem histStep_no_install (s : HistState) (line : String)
    (hline : startsWithStr "Install: " line = false) (hinst : s.installed = []) :
    (histStep s line).installed = [] ∧ (histStep s line).entries = s.entries := by
  unfold histStep
  cases h1 : stripPre "Start-Date: " line with
  | some d => simp
  | none =>
  cases h2 : stripPre "Commandline: " line with
  | some c => simp [hinst]
  | none =>
  cases h3 : stripPre "Requested-By: " line with
  | some r => simp [hinst]
  | none =>
  cases h4 : stripPre "Install: " line with
  | some pkgs =>
    have := stripPre_isSome h4
    unfold startsWithStr at hline
    rw [this] at hline
    exact absurd hline (by decide)
  | none =>
    simp [hinst]

/-- Claim C2 (amended): `parse_history` materializes exactly one event
per end-marker line at which the current install list — the one set by
the most recent install-list line and cleared by start markers, but not
by end markers — is non-empty (`endEmits` counts those lines while
evolving the state by the source's own step function).  In particular a
log with no install-list line yields no events, so an end marker with no
preceding install-list, or consecutive start markers, never emit; a
preceding start marker is however not required, and repeated end markers
each re-emit the current list. -/
theorem parse_history_emits_only_at_end_markers : ∀ log : String,
    (parse_history log).length = endEmits histInit (linesOf log)
    ∧ ((∀ line ∈ linesOf log, startsWithStr "Install: " line = false) →
        parse_history log = []) := by
  intro log
  constructor
  · have := foldl_histStep_length (linesOf log) histInit
    simpa [parse_history, histInit] using this
  · intro hall
    have key : ∀ (lines : List String) (s : HistState),
        (∀ line ∈ lines, startsWithStr "Install: " line = false) →
        s.installed = [] → (lines.foldl histStep s).entries = s.entries := by
      intro lines
      induction lines with
      | nil => intro s _ _; rfl
      | cons line rest ih =>
        intro s hlines hinst
        rcases histStep_no_install s line (hlines line (by simp)) hinst with ⟨hi, he⟩
        rw [List.foldl_cons, ih (histStep s line) (fun l hl => hlines l (by simp [hl])) hi, he]
    have := key (linesOf log) histInit hall rfl
    simpa [parse_history, histInit] using this

/-- Witness for the amended C2 at the source's pure-upgrade test log
(no install-list line, hence no events). -/
theorem parse_history_emits_only_at_end_markers_witness :
    (∀ line ∈ linesOf exLogUpgrade, startsWithStr "Install: " line = false)
    ∧ parse_history exLogUpgrade = [] :=
  ⟨by decide, (parse_history_emits_only_at_end_markers exLogUpgrade).2 (by decide)⟩

/-! ## C3: parse_history_packages -/

/-- Claim C3: an install-list line is split on the separator `"), "`;
each kept package name is the part of its entry before the first `':'`,
and an entry is dropped exactly when that name is empty or the entry
text contains `"automatic"`.  The multi-comma example line yields
exactly `["build-essential"]`. -/
theorem parse_history_packages_spec : ∀ line : String,
    (∀ p, p ∈ parse_history_packages line ↔
      ∃ entry ∈ splitStr line "), ",
        p = (⟨upToChar ':' entry.data⟩ : String) ∧ p ≠ ""
          ∧ containsStr entry "automatic" = false)
    ∧ parse_history_packages
        "build-essential:amd64 (12.12ubuntu1), gcc:amd64 (4:15.2.0-4ubuntu1, automatic)"
        = ["build-essential"] := by
  intro line
  constructor
  · intro p
    unfold parse_history_packages
    rw [List.mem_filterMap]
    constructor
    · rintro ⟨entry, hmem, hf⟩
      refine ⟨entry, hmem, ?_⟩
      by_cases h1 : (⟨upToChar ':' entry.data⟩ : String) = ""
      · simp [h1] at hf
      · by_cases h2 : containsStr entry "automatic" = true
        · simp [h1, h2] at hf
        · rw [Bool.not_eq_true] at h2
          simp [h1, h2] at hf
          exact ⟨hf.symm, fun hp => h1 (hf ▸ hp), h2⟩
    · rintro ⟨entry, hmem, hp, hne, hauto⟩
      refine ⟨entry, hmem, ?_⟩
      have h1 : (⟨upToChar ':' entry.data⟩ : String) ≠ "" := by
        rw [hp] at hne
        exact hne
      simp [h1, hauto, hp]
  · decide

/-- Witness for C3: the non-automatic multi-comma entry of the example
line is kept under the stated characterization. -/
theorem parse_history_packages_spec_witness :
    "build-essential" ∈ parse_history_packages
      "build-essential:amd64 (12.12ubuntu1), gcc:amd64 (4:15.2.0-4ubuntu1, automatic)" :=
  ((parse_history_packages_spec _).1 "build-essential").mpr
    ⟨"build-essential:amd64 (12.12ubuntu1", by decide, by decide, by decide, by decide⟩

/-! ## C5: same_day_neighbors -/

/-- `strLtB` is irreflexive. -/
theorem strLtB_irrefl : ∀ l : List Char, strLtB l l = false := by
  intro l
  induction l with
  | nil => rfl
  | cons c cs ih => simp [strLtB, ih]

/-- `strLtB` is transitive. -/
theorem strLtB_trans : ∀ (a b c : List Char),
    strLtB a b = true → strLtB b c = true → strLtB a c = true := by
  intro a
  induction a with
  | nil =>
    intro b c hab hbc
    cases b with
    | nil => simp [strLtB] at hab
    | cons y ys =>
      cases c with
      | nil => simp [strLtB] at hbc
      | cons z zs => simp [strLtB]
  | cons x xs ih =>
    intro b c hab hbc
    cases b with
    | nil => simp [strLtB] at hab
    | cons y ys =>
      cases c with
      | nil => simp [strLtB] at hbc
      | cons z zs =>
        simp only [strLtB] at hab hbc ⊢
        by_cases h1 : x < y
        · by_cases h2 : y < z
          · simp [lt_trans h1 h2]
          · by_cases h3 : z < y
            · simp [h2, h3] at hbc
            · have hyz : y = z := le_antisymm (not_lt.mp h3) (not_lt.mp h2)
              simp [hyz ▸ h1]
        · by_cases h1' : y < x
          · simp [h1, h1'] at hab
          · have hxy : x = y := le_antisymm (not_lt.mp h1') (not_lt.mp h1)
            simp [h1, h1'] at hab
            by_cases h2 : y < z
            · simp [hxy ▸ h2]
            · by_cases h3 : z < y
              · simp [h2, h3] at hbc
              · have hyz : y = z := le_antisymm (not_lt.mp h3) (not_lt.mp h2)
                simp [h2, h3] at hbc
                have hxz : x = z := hxy.trans hyz
                simp [hxz]
                exact ih ys zs hab hbc

/-- Two lists neither of which is `strLtB`-below the other are equal. -/
theorem strLtB_eq_of_both_false : ∀ (a b : List Char),
    strLtB a b = false → strLtB b a = false → a = b := by
  intro a
  induction a with
  | nil =>
    intro b h1 _
    cases b with
    | nil => rfl
    | cons y ys => simp [strLtB] at h1
  | cons x xs ih =>
    intro b h1 h2
    cases b with
    | nil => simp [strLtB] at h2
    | cons y ys =>
      simp only [strLtB] at h1 h2
      by_cases hxy : x < y
      · simp [hxy] at h1
      · by_cases hyx : y < x
        · simp [hyx] at h2
        · have hx : x = y := le_antisymm (not_lt.mp hyx) (not_lt.mp hxy)
          simp [hxy, hyx] at h1 h2
          rw [hx, ih ys h1 h2]

/-- Membership after a sorted insertion. -/
theorem mem_sortedInsert : ∀ (s : String) (l : List String) (a : String),
    a ∈ sortedInsert s l ↔ a = s ∨ a ∈ l := by
  intro s l
  induction l with
  | nil => intro a; simp [sortedInsert]
  | cons t rest ih =>
    intro a
    unfold sortedInsert
    split_ifs with h1 h2
    · simp [List.mem_cons]
    · subst h2
      simp [List.mem_cons]
    · simp [List.mem_cons, ih]
      tauto

/-- Sorted insertion preserves strict sortedness. -/
theorem sortedInsert_pairwise (s : String) (l : List String)
    (h : l.Pairwise fun a b => strLtB a.data b.data = true) :
    (sortedInsert s l).Pairwise fun a b => strLtB a.data b.data = true := by
  induction l with
  | nil => simp [sortedInsert]
  | cons t rest ih =>
    rcases List.pairwise_cons.mp h with ⟨ht, hrest⟩
    unfold sortedInsert
    split_ifs with h1 h2
    · refine List.pairwise_cons.mpr ⟨?_, h⟩
      intro b hb
      rcases List.mem_cons.mp hb with rfl | hb2
      · exact h1
      · exact strLtB_trans _ _ _ h1 (ht b hb2)
    · exact h
    · refine List.pairwise_cons.mpr ⟨?_, ih hrest⟩
      intro b hb
      rcases (mem_sortedInsert s rest b).mp hb with rfl | hb2
      · by_contra hc
        have hf : strLtB b.data t.data = false := by
          cases hv : strLtB b.data t.data
          · rfl
          · exact absurd hv h1
        have hcf : strLtB t.data b.data = false := by
          cases hv : strLtB t.data b.data
          · rfl
          · exact absurd hv hc
        exact h2 (strEq_of_data (strLtB_eq_of_both_false _ _ hf hcf))
      · exact ht b hb2

/-- Folding sorted insertions keeps the accumulator sorted and collects
exactly the members. -/
theorem foldl_sortedInsert_spec : ∀ (l acc : List String),
    acc.Pairwise (fun a b => strLtB a.data b.data = true) →
    ((l.foldl (fun acc s => sortedInsert s acc) acc).Pairwise
        (fun a b => strLtB a.data b.data = true)
      ∧ ∀ p, p ∈ l.foldl (fun acc s => sortedInsert s acc) acc ↔ p ∈ acc ∨ p ∈ l) := by
  intro l
  induction l with
  | nil =>
    intro acc h
    exact ⟨h, by simp⟩
  | cons s rest ih =>
    intro acc h
    rw [List.foldl_cons]
    rcases ih (sortedInsert s acc) (sortedInsert_pairwise s acc h) with ⟨hp, hm⟩
    refine ⟨hp, fun p => ?_⟩
    rw [hm p, mem_sortedInsert]
    simp [List.mem_cons]
    tauto

/-- Claim C5: `same_day_neighbors` contains exactly the packages of
other events (differing in date text or command line) sharing the
queried event's first date token, excluding the queried name and the
sibling set; the result is strictly sorted (deduplicated, lexicographic),
never contains the name, and is disjoint from the sibling set. -/
theorem same_day_neighbors_spec :
    ∀ (entries : List HistoryEntry) (entry : HistoryEntry) (name : String)
      (sibling_set : List String),
    (∀ p, p ∈ same_day_neighbors entries entry name sibling_set ↔
        ((∃ e ∈ entries,
            (e.date ≠ entry.date ∨ e.commandline ≠ entry.commandline)
              ∧ firstTokenOf e.date = firstTokenOf entry.date ∧ p ∈ e.installed)
          ∧ p ≠ name ∧ p ∉ sibling_set))
    ∧ (same_day_neighbors entries entry name sibling_set).Pairwise
        (fun a b => strLtB a.data b.data = true)
    ∧ name ∉ same_day_neighbors entries entry name sibling_set
    ∧ ∀ p ∈ sibling_set, p ∉ same_day_neighbors entries entry name sibling_set := by
  intro entries entry name sibling_set
  have hsd := foldl_sortedInsert_spec (sameDayPkgs entries entry name sibling_set) []
    (by simp)
  have hmem : ∀ p, p ∈ same_day_neighbors entries entry name sibling_set ↔
      p ∈ sameDayPkgs entries entry name sibling_set := by
    intro p
    rw [same_day_neighbors, sortDedup, hsd.2 p]
    simp
  have hb : ∀ e : HistoryEntry,
      ((decide (firstTokenOf e.date = firstTokenOf entry.date)
          && !(decide (e.date = entry.date) && decide (e.commandline = entry.commandline)))
        = true)
        ↔ (firstTokenOf e.date = firstTokenOf entry.date
            ∧ (e.date ≠ entry.date ∨ e.commandline ≠ entry.commandline)) := by
    intro e
    by_cases h1 : e.date = entry.date <;> by_cases h2 : e.commandline = entry.commandline <;>
      simp [h1, h2]
  have hb2 : ∀ q : String,
      ((decide (q ≠ name) && decide (q ∉ sibling_set)) = true)
        ↔ (q ≠ name ∧ q ∉ sibling_set) := by
    intro q
    simp
  have hchar : ∀ p, p ∈ sameDayPkgs entries entry name sibling_set ↔
      ((∃ e ∈ entries,
          (e.date ≠ entry.date ∨ e.commandline ≠ entry.commandline)
            ∧ firstTokenOf e.date = firstTokenOf entry.date ∧ p ∈ e.installed)
        ∧ p ≠ name ∧ p ∉ sibling_set) := by
    intro p
    unfold sameDayPkgs
    simp only [List.mem_filter, List.mem_flatMap]
    constructor
    · rintro ⟨⟨e, ⟨he, hc1⟩, hpi⟩, hc2⟩
      rcases (hb e).mp hc1 with ⟨htok, hor⟩
      rcases (hb2 p).mp hc2 with ⟨hne, hns⟩
      exact ⟨⟨e, he, hor, htok, hpi⟩, hne, hns⟩
    · rintro ⟨⟨e, he, hor, htok, hpi⟩, hne, hns⟩
      exact ⟨⟨e, ⟨he, (hb e).mpr ⟨htok, hor⟩⟩, hpi⟩, (hb2 p).mpr ⟨hne, hns⟩⟩
  refine ⟨fun p => (hmem p).trans (hchar p), ?_, ?_, ?_⟩
  · rw [same_day_neighbors, sortDedup]
    exact hsd.1
  · intro hname
    exact (((hmem name).trans (hchar name)).mp hname).2.1 rfl
  · intro p hp hcontra
    exact (((hmem p).trans (hchar p)).mp hcontra).2.2 hp

/-- Witness for C5 at the uidmap / same-day scenario. -/
theorem same_day_neighbors_spec_witness :
    "podman" ∈ same_day_neighbors [exEntryA, exEntryB] exEntryA "uidmap" ["aardvark-dns"]
    ∧ "aardvark-dns" ∉
        same_day_neighbors [exEntryA, exEntryB] exEntryA "uidmap" ["aardvark-dns"] :=
  ⟨((same_day_neighbors_spec [exEntryA, exEntryB] exEntryA "uidmap" ["aardvark-dns"]).1
      "podman").mpr ⟨⟨exEntryB, by decide, by decide, by decide, by decide⟩,
        by decide, by decide⟩,
    (same_day_neighbors_spec [exEntryA, exEntryB] exEntryA "uidmap"
      ["aardvark-dns"]).2.2.2 "aardvark-dns" (by decide)⟩

/-! ## C4: find_nearby_commands -/

/-- Membership after a keyed insertion. -/
theorem mem_insKey {α : Type} (key : α → Int) (a : α) : ∀ (l : List α) (x : α),
    x ∈ insKey key a l ↔ x = a ∨ x ∈ l := by
  intro l
  induction l with
  | nil => intro x; simp [insKey]
  | cons b rest ih =>
    intro x
    unfold insKey
    split_ifs with h
    · simp only [List.mem_cons, ih]
      tauto
    · simp only [List.mem_cons]

/-- A keyed insertion permutes a `cons`. -/
theorem insKey_perm {α : Type} (key : α → Int) (a : α) : ∀ l : List α,
    List.Perm (insKey key a l) (a :: l) := by
  intro l
  induction l with
  | nil => exact List.Perm.refl _
  | cons b rest ih =>
    unfold insKey
    split_ifs with h
    · exact (ih.cons b).trans (List.Perm.swap a b rest)
    · exact List.Perm.refl _

/-- Folding keyed insertions permutes the inputs. -/
theorem foldl_insKey_perm {α : Type} (key : α → Int) : ∀ (l acc : List α),
    List.Perm (l.foldl (fun acc x => insKey key x acc) acc) (acc ++ l) := by
  intro l
  induction l with
  | nil => intro acc; simp
  | cons x rest ih =>
    intro acc
    rw [List.foldl_cons]
    refine (ih (insKey key x acc)).trans ?_
    refine (List.Perm.append_right rest (insKey_perm key x acc)).trans ?_
    exact List.perm_middle.symm

/-- `sortKey` permutes its input. -/
theorem sortKey_perm {α : Type} (key : α → Int) (l : List α) :
    List.Perm (sortKey key l) l := by
  have := foldl_insKey_perm key l []
  simpa [sortKey] using this

/-- Keyed insertion preserves sortedness by the key. -/
theorem insKey_pairwise {α : Type} (key : α → Int) (a : α) : ∀ l : List α,
    l.Pairwise (fun u v => key u ≤ key v) →
    (insKey key a l).Pairwise (fun u v => key u ≤ key v) := by
  intro l
  induction l with
  | nil => intro _; simp [insKey]
  | cons b rest ih =>
    intro h
    rcases List.pairwise_cons.mp h with ⟨hb, hrest⟩
    unfold insKey
    split_ifs with hle
    · refine List.pairwise_cons.mpr ⟨?_, ih hrest⟩
      intro x hx
      rcases (mem_insKey key a rest x).mp hx with rfl | hx2
      · exact hle
      · exact hb x hx2
    · refine List.pairwise_cons.mpr ⟨?_, h⟩
      intro x hx
      rcases List.mem_cons.mp hx with rfl | hx2
      · exact (not_le.mp hle).le
      · exact ((not_le.mp hle).le).trans (hb x hx2)

/-- `sortKey` sorts by the key. -/
theorem sortKey_pairwise {α : Type} (key : α → Int) (l : List α) :
    (sortKey key l).Pairwise (fun u v => key u ≤ key v) := by
  suffices h : ∀ (l acc : List α), acc.Pairwise (fun u v => key u ≤ key v) →
      (l.foldl (fun acc x => insKey key x acc) acc).Pairwise (fun u v => key u ≤ key v) by
    exact h l [] (by simp)
  intro l
  induction l with
  | nil => intro acc h; simpa using h
  | cons x rest ih =>
    intro acc h
    rw [List.foldl_cons]
    exact ih _ (insKey_pairwise key x acc h)

/-- Where a keyed insertion lands among the elements of one key value:
at the end of them (stability of the insertion). -/
theorem insKey_filter {α : Type} (key : α → Int) (a : α) (d : Int) : ∀ l : List α,
    l.Pairwise (fun u v => key u ≤ key v) →
    (insKey key a l).filter (fun e => decide (key e = d)) =
      (if key a = d then l.filter (fun e => decide (key e = d)) ++ [a]
       else l.filter (fun e => decide (key e = d))) := by
  intro l
  induction l with
  | nil =>
    intro _
    by_cases hd : key a = d <;> simp [insKey, hd]
  | cons b rest ih =>
    intro h
    rcases List.pairwise_cons.mp h with ⟨hb, hrest⟩
    by_cases hle : key b ≤ key a
    · rw [insKey, if_pos hle, List.filter_cons, ih hrest]
      by_cases hbd : key b = d <;> by_cases had : key a = d <;>
        simp [hbd, had]
    · have hab : key a < key b := not_le.mp hle
      rw [insKey, if_neg hle]
      by_cases had : key a = d
      · have hnil : (b :: rest).filter (fun e => decide (key e = d)) = [] := by
          rw [List.filter_eq_nil_iff]
          intro x hx
          have hbx : key b ≤ key x := by
            rcases List.mem_cons.mp hx with rfl | hx2
            · exact le_refl _
            · exact hb x hx2
          have hdx : d < key x := had ▸ lt_of_lt_of_le hab hbx
          simp [hdx.ne']
        rw [List.filter_cons, hnil]
        simp [had]
      · rw [List.filter_cons]
        simp [had]

/-- Stability of `sortKey`: the elements of any one key value appear in
their original relative order. -/
theorem sortKey_filter {α : Type} (key : α → Int) (d : Int) : ∀ l : List α,
    (sortKey key l).filter (fun e => decide (key e = d)) =
      l.filter (fun e => decide (key e = d)) := by
  suffices h : ∀ (l acc : List α), acc.Pairwise (fun u v => key u ≤ key v) →
      (l.foldl (fun acc x => insKey key x acc) acc).filter (fun e => decide (key e = d)) =
        acc.filter (fun e => decide (key e = d)) ++ l.filter (fun e => decide (key e = d)) by
    intro l
    have := h l [] (by simp)
    simpa [sortKey] using this
  intro l
  induction l with
  | nil => intro acc _; simp
  | cons x rest ih =>
    intro acc h
    rw [List.foldl_cons, ih _ (insKey_pairwise key x acc h), insKey_filter key x d acc h]
    rw [List.filter_cons]
    by_cases hxd : key x = d <;> simp [hxd]

/-- The kept records are a subsequence of the sorted in-window records. -/
theorem selectedNearby_sublist (history : List ShellHistoryEntry)
    (target window : Int) (show_all : Bool) :
    List.Sublist (selectedNearby history target window show_all)
      (nearbySorted history target window) :=
  (List.take_sublist 5 _).trans (List.filter_sublist _)

/-- Claim C4: `find_nearby_commands` lists the commands of
`selectedNearby`: at most 5 records, all from history records within the
window, ordered by non-decreasing distance to the target, with records
at equal distance in their original history order; no kept command
contains `"apt-get install"` or `"apt install"`, and with
`show_all = false` no kept command's first token is in the trivial set. -/
theorem find_nearby_commands_spec :
    ∀ (history : List ShellHistoryEntry) (target window : Int) (show_all : Bool),
    find_nearby_commands history target window show_all
        = (selectedNearby history target window show_all).map (fun e => e.command)
    ∧ (find_nearby_commands history target window show_all).length ≤ 5
    ∧ (∀ e ∈ selectedNearby history target window show_all,
        e ∈ history ∧ |e.timestamp - target| ≤ window)
    ∧ (selectedNearby history target window show_all).Pairwise
        (fun a b => |a.timestamp - target| ≤ |b.timestamp - target|)
    ∧ (∀ d : Int,
        List.Sublist
          ((selectedNearby history target window show_all).filter
            (fun e => decide (|e.timestamp - target| = d)))
          (history.filter (fun e => decide (|e.timestamp - target| = d))))
    ∧ (∀ c ∈ find_nearby_commands history target window show_all,
        containsStr c "apt-get install" = false ∧ containsStr c "apt install" = false)
    ∧ (show_all = false →
        ∀ c ∈ find_nearby_commands history target window show_all,
          firstTokenOf c ∉
            (["ls", "clear", "exit", "pwd", "echo", "cat", "true", "history"] : List String)) := by
  intro history target window show_all
  have hkeep : ∀ e ∈ selectedNearby history target window show_all,
      keepCmd show_all e.command = true := by
    intro e he
    have := (List.take_sublist 5 _).subset he
    exact (List.mem_filter.mp this).2
  have hcmds : ∀ c ∈ find_nearby_commands history target window show_all,
      ∃ e ∈ selectedNearby history target window show_all, e.command = c := by
    intro c hc
    rcases List.mem_map.mp hc with ⟨e, he, hec⟩
    exact ⟨e, he, hec⟩
  refine ⟨rfl, ?_, ?_, ?_, ?_, ?_, ?_⟩
  · rw [find_nearby_commands, List.length_map, selectedNearby]
    exact List.length_take_le 5 _
  · intro e he
    have h1 : e ∈ nearbySorted history target window :=
      (selectedNearby_sublist history target window show_all).subset he
    have h2 : e ∈ history.filter
        (fun e => decide (|e.timestamp - target| ≤ window)) :=
      (sortKey_perm _ _).mem_iff.mp h1
    rcases List.mem_filter.mp h2 with ⟨hh, hw⟩
    exact ⟨hh, of_decide_eq_true hw⟩
  · exact (sortKey_pairwise _ _).sublist
      (selectedNearby_sublist history target window show_all)
  · intro d
    have h1 : List.Sublist
        ((selectedNearby history target window show_all).filter
          (fun e => decide (|e.timestamp - target| = d)))
        ((nearbySorted history target window).filter
          (fun e => decide (|e.timestamp - target| = d))) :=
      List.Sublist.filter _ (selectedNearby_sublist history target window show_all)
    rw [nearbySorted, sortKey_filter] at h1
    refine h1.trans ?_
    have hcomm :
        (history.filter (fun e => decide (|e.timestamp - target| ≤ window))).filter
            (fun e => decide (|e.timestamp - target| = d))
          = (history.filter (fun e => decide (|e.timestamp - target| = d))).filter
              (fun e => decide (|e.timestamp - target| ≤ window)) := by
      simp [List.filter_filter, Bool.and_comm]
    rw [hcomm]
    exact List.filter_sublist _
  · intro c hc
    rcases hcmds c hc with ⟨e, he, rfl⟩
    have hk := hkeep e he
    unfold keepCmd at hk
    rcases Bool.and_eq_true_iff.mp hk with ⟨h1, -⟩
    constructor
    · cases hv : containsStr e.command "apt-get install"
      · rfl
      · rw [hv] at h1
        simp at h1
    · cases hv : containsStr e.command "apt install"
      · rfl
      · rw [hv] at h1
        simp at h1
  · intro hsa c hc
    rcases hcmds c hc with ⟨e, he, rfl⟩
    have hk := hkeep e he
    rw [hsa] at hk
    unfold keepCmd at hk
    rcases Bool.and_eq_true_iff.mp hk with ⟨-, h2⟩
    have hint : is_interesting_command e.command = true := by
      simpa using h2
    unfold is_interesting_command at hint
    have hnot : firstTokenOf e.command ∉ trivialFirstWords := by
      intro hmem
      rw [decide_eq_true hmem] at hint
      simp at hint
    intro hmem8
    apply hnot
    unfold trivialFirstWords
    simp only [List.mem_cons, List.mem_singleton] at hmem8 ⊢
    tauto

/-- Witness for C4 at the shell-history scenario: the window keeps and
orders the three near commands, and the kept command "git status" is not
trivial. -/
theorem find_nearby_commands_spec_witness :
    find_nearby_commands exHist 1200 300 false
        = ["cd ~/project", "git status", "make build"]
    ∧ firstTokenOf "git status" ∉
        (["ls", "clear", "exit", "pwd", "echo", "cat", "true", "history"] : List String) :=
  ⟨by decide,
    (find_nearby_commands_spec exHist 1200 300 false).2.2.2.2.2.2 rfl "git status"
      (by decide)⟩

/-! ## C7: parse_journal_pwd -/

/-- The journal loop returns exactly the first accepted line's result. -/
theorem scanLines_eq_findSome : ∀ (pkgNames : List String) (home : String)
    (lines : List String),
    scanLines pkgNames home lines = lines.findSome? (journalLineSpec pkgNames home) := by
  intro pkgNames home lines
  induction lines with
  | nil => rfl
  | cons line rest ih =>
    by_cases h1 : (containsStr line "PWD=" && containsStr line "COMMAND=") = true
    · by_cases h2 : (containsStr (commandValue line) "apt"
          && (pkgNames.any fun pkg => containsStr (commandValue line) pkg)) = true
      · simp [scanLines, journalLineSpec, List.findSome?_cons, h1, h2]
      · simp [scanLines, journalLineSpec, List.findSome?_cons, h1, h2, ih]
    · simp [scanLines, journalLineSpec, List.findSome?_cons, h1, ih]

/-- Claim C7: the audit correlator returns `none` when no candidate
package token remains after dropping the leading flag / `apt-get` /
`apt` / `install` tokens; otherwise (home available) it returns the
result of the first journal line carrying both `PWD=` and `COMMAND=`
whose command value contains `"apt"` and a candidate token — the
`PWD=` value up to `" ;"` or line end, tilde-substituted when under the
home directory. -/
theorem parse_journal_pwd_spec :
    ∀ (journal commandline : String) (home : Option String),
    (pkgNameTokens commandline = [] → parse_journal_pwd journal commandline home = none)
    ∧ ∀ h : String, home = some h → pkgNameTokens commandline ≠ [] →
        parse_journal_pwd journal commandline home
          = (linesOf journal).findSome? (journalLineSpec (pkgNameTokens commandline) h) := by
  intro journal commandline home
  constructor
  · intro hempty
    simp [parse_journal_pwd, hempty]
  · intro h hh hne
    subst hh
    have hemp : (pkgNameTokens commandline).isEmpty = false := by
      cases hv : pkgNameTokens commandline
      · exact absurd hv hne
      · rfl
    simp [parse_journal_pwd, hemp, scanLines_eq_findSome]

/-- Witness for C7 at the journal scenario of the source's tests. -/
theorem parse_journal_pwd_spec_witness :
    pkgNameTokens "apt-get install -y uidmap" ≠ []
    ∧ parse_journal_pwd exJournal "apt-get install -y uidmap" (some "/home/u")
        = some "~/dotfiles" := by
  refine ⟨by decide, ?_⟩
  rw [(parse_journal_pwd_spec exJournal "apt-get install -y uidmap" (some "/home/u")).2
    "/home/u" rfl (by decide)]
  decide

/-! ## C8: parse_shell_history -/

/-- A successful `splitOnceChar` decomposes the list at the first
separator occurrence. -/
theorem splitOnceChar_some (sep : Char) : ∀ (l a b : List Char),
    splitOnceChar sep l = some (a, b) → l = a ++ sep :: b ∧ sep ∉ a := by
  intro l
  induction l with
  | nil => intro a b h; simp [splitOnceChar] at h
  | cons c rest ih =>
    intro a b h
    rw [splitOnceChar] at h
    by_cases hc : (c == sep) = true
    · rw [if_pos hc] at h
      have hcc : c = sep := by simpa [beq_iff_eq] using hc
      rcases Prod.mk.injEq .. ▸ Option.some.inj h with ⟨ha, hb⟩
      subst hcc
      constructor
      · rw [← ha, ← hb]
        rfl
      · rw [← ha]
        simp
    · rw [if_neg hc] at h
      rcases hm : splitOnceChar sep rest with _ | ⟨a2, b2⟩
      · rw [hm] at h
        simp at h
      · rw [hm] at h
        simp only [Option.map_some', Option.some.injEq, Prod.mk.injEq] at h
        rcases h with ⟨ha, hb⟩
        rcases ih a2 b2 hm with ⟨hrest, hnot⟩
        constructor
        · rw [← ha, ← hb, hrest]
          rfl
        · rw [← ha]
          intro hmem
          rcases List.mem_cons.mp hmem with h1 | h2
          · exact absurd h1.symm (by simpa [beq_iff_eq] using hc)
          · exact hnot h2

/-- `splitOnceChar` over an explicit first separator occurrence. -/
theorem splitOnceChar_append (sep : Char) : ∀ (a b : List Char), sep ∉ a →
    splitOnceChar sep (a ++ sep :: b) = some (a, b) := by
  intro a
  induction a with
  | nil => intro b _; simp [splitOnceChar]
  | cons c cs ih =>
    intro b hnot
    have hc : ¬ (c == sep) = true := by
      simp only [beq_iff_eq]
      intro hcc
      exact hnot (List.mem_cons.mpr (Or.inl hcc.symm))
    rw [List.cons_append, splitOnceChar, if_neg hc,
      ih b (fun hm => hnot (List.mem_cons_of_mem c hm))]
    rfl

/-- Without the separator, `upToChar` is the whole list. -/
theorem upToChar_of_not_mem (sep : Char) : ∀ l : List Char, sep ∉ l →
    upToChar sep l = l := by
  intro l
  induction l with
  | nil => intro _; rfl
  | cons c cs ih =>
    intro h
    have hc : ¬ (c == sep) = true := by
      simp only [beq_iff_eq]
      intro hcc
      exact h (List.mem_cons.mpr (Or.inl hcc.symm))
    rw [upToChar, if_neg hc, ih (fun hm => h (List.mem_cons_of_mem c hm))]

/-- `upToChar` over an explicit first separator occurrence. -/
theorem upToChar_append (sep : Char) : ∀ (a b : List Char), sep ∉ a →
    upToChar sep (a ++ sep :: b) = a := by
  intro a
  induction a with
  | nil => intro b _; simp [upToChar]
  | cons c cs ih =>
    intro b h
    have hc : ¬ (c == sep) = true := by
      simp only [beq_iff_eq]
      intro hcc
      exact h (List.mem_cons.mpr (Or.inl hcc.symm))
    rw [List.cons_append, upToChar, if_neg hc, ih b (fun hm => h (List.mem_cons_of_mem c hm))]

/-- Every list either misses the separator or splits at its first
occurrence, with `upToChar` the part before it. -/
theorem upToChar_cases (sep : Char) : ∀ l : List Char,
    (sep ∉ l ∧ upToChar sep l = l)
    ∨ ∃ b, l = upToChar sep l ++ sep :: b ∧ sep ∉ upToChar sep l := by
  intro l
  induction l with
  | nil =>
    left
    exact ⟨by simp, rfl⟩
  | cons c cs ih =>
    by_cases hc : (c == sep) = true
    · right
      have hcc : c = sep := by simpa [beq_iff_eq] using hc
      refine ⟨cs, ?_, ?_⟩
      · rw [upToChar, if_pos hc, hcc]
        rfl
      · rw [upToChar, if_pos hc]
        simp
    · have hcne : c ≠ sep := by simpa [beq_iff_eq] using hc
      rcases ih with ⟨hnot, heq⟩ | ⟨b, heq, hnot⟩
      · left
        constructor
        · intro hm
          rcases List.mem_cons.mp hm with h1 | h2
          · exact hcne h1.symm
          · exact hnot h2
        · rw [upToChar, if_neg hc, heq]
      · right
        refine ⟨b, ?_, ?_⟩
        · rw [upToChar, if_neg hc, List.cons_append, ← heq]
        · rw [upToChar, if_neg hc]
          intro hm
          rcases List.mem_cons.mp hm with h1 | h2
          · exact hcne h1.symm
          · exact hnot h2

/-- Digit-scanning success means every character was a digit. -/
theorem digitsValAux_digits : ∀ (l : List Char) (acc n : Nat),
    digitsValAux l acc = some n → ∀ c ∈ l, c.isDigit = true := by
  intro l
  induction l with
  | nil => intro acc n _ c hc; simp at hc
  | cons c0 rest ih =>
    intro acc n h c hc
    rw [digitsValAux] at h
    by_cases hd : c0.isDigit = true
    · rw [if_pos hd] at h
      rcases List.mem_cons.mp hc with rfl | hc2
      · exact hd
      · exact ih _ n h c hc2
    · rw [if_neg hd] at h
      exact absurd h (by simp)

/-- `digitsVal` success means every character was a digit. -/
theorem digitsVal_digits : ∀ (l : List Char) (n : Nat), digitsVal l = some n →
    ∀ c ∈ l, c.isDigit = true := by
  intro l n h
  cases l with
  | nil => simp [digitsVal] at h
  | cons c0 rest => exact digitsValAux_digits _ _ _ (by simpa [digitsVal] using h)

/-- A string accepted by `parseI64` consists of sign and digit
characters only. -/
theorem parseI64_chars {s : String} {t : Int} (h : parseI64 s = some t) :
    ∀ c ∈ s.data, c = '+' ∨ c = '-' ∨ c.isDigit = true := by
  unfold parseI64 at h
  cases hd : s.data with
  | nil => intro c hc; simp at hc
  | cons c0 rest =>
    simp only [hd] at h
    intro c hc
    by_cases h0 : c0 = '+'
    · rw [if_pos h0] at h
      rcases hb : digitsVal rest with _ | n
      · rw [hb] at h
        simp at h
      · have hdig := digitsVal_digits rest n hb
        rcases List.mem_cons.mp hc with rfl | hc2
        · exact Or.inl h0
        · exact Or.inr (Or.inr (hdig c hc2))
    · by_cases h1 : c0 = '-'
      · rw [if_neg h0, if_pos h1] at h
        rcases hb : digitsVal rest with _ | n
        · rw [hb] at h
          simp at h
        · have hdig := digitsVal_digits rest n hb
          rcases List.mem_cons.mp hc with rfl | hc2
          · exact Or.inr (Or.inl h1)
          · exact Or.inr (Or.inr (hdig c hc2))
      · rw [if_neg h0, if_neg h1] at h
        rcases hb : digitsVal (c0 :: rest) with _ | n
        · rw [hb] at h
          simp at h
        · exact Or.inr (Or.inr (digitsVal_digits _ n hb c hc))

/-- An accepted epoch string contains neither `';'` nor `':'`. -/
theorem parseI64_no_sep {s : String} {t : Int} (h : parseI64 s = some t) :
    ';' ∉ s.data ∧ ':' ∉ s.data := by
  constructor
  · intro hm
    rcases parseI64_chars h ';' hm with h1 | h1 | h1
    · exact absurd h1 (by decide)
    · exact absurd h1 (by decide)
    · exact absurd h1 (by decide)
  · intro hm
    rcases parseI64_chars h ':' hm with h1 | h1 | h1
    · exact absurd h1 (by decide)
    · exact absurd h1 (by decide)
    · exact absurd h1 (by decide)

/-- Claim C8: `parse_shell_history` keeps exactly one record per line of
the shape `": <epoch>[:<extra>];<command>"` whose epoch parses as an
`i64`, with that epoch and the text after the first `';'` as the
command; every other line contributes nothing (and parsing is total, so
unsupported dialects yield zero records rather than a failure). -/
theorem parse_shell_history_spec :
    (∀ contents : String,
      parse_shell_history contents = (linesOf contents).filterMap parseShellLine)
    ∧ ∀ (line : String) (t : Int) (c : String),
        parseShellLine line = some { timestamp := t, command := c } ↔
          ∃ e : String, parseI64 e = some t ∧
            (line = ": " ++ e ++ ";" ++ c
              ∨ ∃ x : String, (';' ∉ x.data)
                  ∧ line = ": " ++ e ++ ":" ++ x ++ ";" ++ c) := by
  have hsemi : (";" : String).data = [';'] := rfl
  have hcolon : (":" : String).data = [':'] := rfl
  constructor
  · intro contents
    rfl
  · intro line t c
    constructor
    · intro h
      unfold parseShellLine at h
      cases h1 : stripPre ": " line with
      | none =>
        rw [h1] at h
        simp at h
      | some rest =>
        rw [h1] at h
        dsimp only at h
        cases h2 : splitOnceChar ';' rest.data with
        | none =>
          rw [h2] at h
          simp at h
        | some q =>
          obtain ⟨ep, cmd⟩ := q
          rw [h2] at h
          dsimp only at h
          cases h3 : parseI64 ⟨upToChar ':' ep⟩ with
          | none =>
            rw [h3] at h
            simp at h
          | some tv =>
            rw [h3] at h
            dsimp only at h
            simp only [Option.some.injEq, ShellHistoryEntry.mk.injEq] at h
            obtain ⟨rfl, rfl⟩ := h
            have hline : line = ": " ++ rest := stripPre_some h1
            rcases splitOnceChar_some ';' rest.data ep cmd h2 with ⟨hrest, hepNo⟩
            rcases upToChar_cases ':' ep with ⟨hno, hup⟩ | ⟨b, hb, hno⟩
            · refine ⟨⟨ep⟩, ?_, Or.inl ?_⟩
              · rw [← hup]
                exact h3
              · apply strEq_of_data
                rw [hline]
                simp [String.data_append, hrest, hsemi]
            · refine ⟨⟨upToChar ':' ep⟩, h3, Or.inr ⟨⟨b⟩, ?_, ?_⟩⟩
              · intro hm
                apply hepNo
                rw [hb]
                exact List.mem_append.mpr (Or.inr (List.mem_cons_of_mem _ hm))
              · apply strEq_of_data
                rw [hline]
                simp only [String.data_append, hrest, hsemi, hcolon]
                conv_lhs => rw [hb]
                simp
    · rintro ⟨e, he, hshape⟩
      rcases parseI64_no_sep he with ⟨hs, hcn⟩
      rcases hshape with hl | ⟨x, hx, hl⟩
      · have hline2 : line = ": " ++ (⟨e.data ++ ';' :: c.data⟩ : String) := by
          apply strEq_of_data
          rw [hl]
          simp [String.data_append, hsemi]
        rw [parseShellLine, hline2, stripPre_append]
        dsimp only
        rw [splitOnceChar_append ';' e.data c.data hs]
        dsimp only
        rw [upToChar_of_not_mem ':' e.data hcn]
        rw [show (⟨e.data⟩ : String) = e from rfl, he]
      · have hsA : ';' ∉ e.data ++ ':' :: x.data := by
          intro hm
          rcases List.mem_append.mp hm with h1 | h1
          · exact hs h1
          · rcases List.mem_cons.mp h1 with h2 | h2
            · exact absurd h2 (by decide)
            · exact hx h2
        have hline2 : line = ": " ++ (⟨(e.data ++ ':' :: x.data) ++ ';' :: c.data⟩ : String) := by
          apply strEq_of_data
          rw [hl]
          simp [String.data_append, hsemi, hcolon]
        rw [parseShellLine, hline2, stripPre_append]
        dsimp only
        rw [splitOnceChar_append ';' (e.data ++ ':' :: x.data) c.data hsA]
        dsimp only
        rw [upToChar_append ':' e.data x.data hcn]
        rw [show (⟨e.data⟩ : String) = e from rfl, he]

/-- Witness for C8: the shape characterization accepts a concrete
timestamped zsh line with its epoch and command. -/
theorem parse_shell_history_spec_witness :
    parseI64 "1723305600" = some 1723305600
    ∧ parseShellLine ": 1723305600:0;git status"
        = some { timestamp := 1723305600, command := "git status" } :=
  ⟨by decide,
    (parse_shell_history_spec.2 ": 1723305600:0;git status" 1723305600 "git status").mpr
      ⟨"1723305600", by decide, Or.inr ⟨"0", by decide, by decide⟩⟩⟩

end AptSync
